import Mathlib

/-!
Verification of the core training and calibration logic of the
Iterative-Human-and-Automated-Identification-of-Wildlife-Images repository.

The Python sources under src/src are shallowly embedded: tensors become lists of
rationals, batches become lists of such lists, and named parameter state dicts
become association lists from names to rationals.  The transcendental functions
used by the code (exp and log inside softmax and cross entropy, and the square
root inside the Euclidean norm) are carried as explicit function parameters of
the embedding; every theorem that needs a property of them states it as a
hypothesis, and every statement that does not need any property quantifies over
them, so nothing about their analytic behaviour is assumed silently.
-/

namespace Wildlife

/-- Rational batch of logit (or feature) vectors. -/
abbrev Batch := List (List ℚ)

/-- `torch.softmax(v, dim=-1)` for one row `v`, with `e` standing for `exp`:
each entry becomes `e x / sum (map e v)`. -/
def softmax (e : ℚ → ℚ) (v : List ℚ) : List ℚ :=
  v.map (fun x => e x / (v.map e).sum)

/-- The value component of `tensor.max(dim)` on one row: the greatest entry
(0 for an empty row, which torch rejects). -/
def maxVal : List ℚ → ℚ
  | [] => 0
  | a :: t => t.foldr max a

/-- The index component of `tensor.max(dim)` on one row: the index of the
first occurrence of the greatest entry. -/
def argmaxFst (l : List ℚ) : ℕ :=
  l.findIdx (fun x => decide (x = maxVal l))

/-- The Confidence Gate on one row of logits
(src/src/algorithms/plain_stage_1.py lines 215-218, and identically
src/src/algorithms/stage_1_memory.py lines 69-72):
`max_probs, preds = F.softmax(logits, dim=1).max(dim=1)` followed by
`preds[max_probs < theta] = -1`. -/
def confidenceGateRow (e : ℚ → ℚ) (theta : ℚ) (v : List ℚ) : ℤ :=
  if maxVal (softmax e v) < theta then -1 else (argmaxFst (softmax e v) : ℤ)

/-- The Confidence Gate applied to a whole batch of logits. -/
def confidenceGate (e : ℚ → ℚ) (theta : ℚ) (logits : Batch) : List ℤ :=
  logits.map (confidenceGateRow e theta)

/-! ### Stage-2 unlabeled iterator wrap-around
(src/src/algorithms/stage_2_fixmatch_ema.py lines 122-130) -/

/-- A Python loader iterator: the loader is the list of batches it will yield
and `pos` is how many have been yielded so far.  `next(it)` yields the batch
at `pos` or raises StopIteration (modelled as `none`) when exhausted. -/
def iterNext {B : Type} (loader : List B) (pos : ℕ) : Option (B × ℕ) :=
  match loader.drop pos with
  | [] => none
  | b :: _ => some (b, pos + 1)

/-- The unlabeled draw of one Stage-2 training step:
`try: batch = next(iter_u)  except StopIteration: iter_u = iter(loader_u);
batch = next(iter_u)`.  The retry calls `next` on a fresh iterator, so it can
itself raise (yield `none`) only when the loader is empty. -/
def drawUnlabeled {B : Type} (loader : List B) (pos : ℕ) : Option (B × ℕ) :=
  match iterNext loader pos with
  | some r => some r
  | none => iterNext loader 0

/-! ### EMA teacher update
(src/src/algorithms/stage_2_fixmatch_ema.py lines 238-259) -/

/-- Named parameter state: the pairs of a `state_dict`, keys to values. -/
abbrev StateDict := List (String × ℚ)

/-- Python dict read `msd[k]` (with a default in place of KeyError). -/
def lookupD (m : StateDict) (k : String) (d : ℚ) : ℚ :=
  match m.find? (fun kv => kv.1 == k) with
  | some kv => kv.2
  | none => d

/-- Python dict write `msd[k] = v` on a key already present: rebinds that
entry of the dict (and only it) to the new value. -/
def setKey (m : StateDict) (k : String) (v : ℚ) : StateDict :=
  m.map (fun kv => if kv.1 == k then (k, v) else kv)

/-- Substring occurrence on character lists: `pat` occurs in `s` iff it is a
prefix of some suffix of `s`. -/
def strHasSub (pat : List Char) : List Char → Bool
  | [] => decide (pat = [])
  | c :: t => decide (pat = (c :: t).take pat.length) || strHasSub pat t

/-- The Python membership test `"bn" in k` on a parameter name. -/
def hasBn (k : String) : Bool :=
  strHasSub "bn".data k.data

/-- The `ModelEMA` object of stage_2_fixmatch_ema.py: `ema` is the teacher
state dict (a deep copy of the model at construction), `decay` the EMA decay,
and `wd` the product `lr * wdecay` formed in `__init__`. -/
structure ModelEMA where
  ema : StateDict
  decay : ℚ
  wd : ℚ

/-- `ModelEMA.__init__(lr, wdecay, model, decay)`. -/
def ModelEMA.init (lr wdecay : ℚ) (model : StateDict) (decay : ℚ) : ModelEMA :=
  { ema := model, decay := decay, wd := lr * wdecay }

/-- One iteration of the loop in `ModelEMA.update`: the accumulator carries
the teacher values written so far (by `ema_v.copy_`) and the current local
dict `msd`.  For key `k` with teacher value `ema_v`:
`model_v = msd[k]`, `ema_v.copy_(ema_v * decay + (1 - decay) * model_v)`, and
then, unless `"bn" in k`, the rebinding `msd[k] = msd[k] * (1 - wd)`. -/
def updateStep (decay wd : ℚ) (acc : StateDict × StateDict) (kv : String × ℚ) :
    StateDict × StateDict :=
  let model_v := lookupD acc.2 kv.1 0
  let new_v := kv.2 * decay + (1 - decay) * model_v
  let msd2 := if hasBn kv.1 then acc.2
    else setKey acc.2 kv.1 (lookupD acc.2 kv.1 0 * (1 - wd))
  (acc.1 ++ [(kv.1, new_v)], msd2)

/-- `ModelEMA.update(model)`.  `msd = model.state_dict()` is a fresh dict
whose values alias the student parameter tensors; `ema_v.copy_` writes the
teacher tensors in place, while `msd[k] = msd[k] * (1 - wd)` only rebinds an
entry of the local dict `msd`, which is dropped when `update` returns — no
in-place operation ever touches a student tensor, so the student parameters
are returned unchanged.  The result is (teacher after the update, student
after the update). -/
def ModelEMA.update (m : ModelEMA) (student : StateDict) :
    ModelEMA × StateDict :=
  let r := m.ema.foldl (updateStep m.decay m.wd) ([], student)
  ({ ema := r.1, decay := m.decay, wd := m.wd }, student)

/-- The decoupled weight decay the spec intends for the student after each
EMA update: every parameter whose name does not contain `bn` is multiplied by
`1 - lr * wdecay`, normalization parameters are left alone.  Stated from the
spec for comparison with what `ModelEMA.update` actually does. -/
def specStudentDecay (wd : ℚ) (student : StateDict) : StateDict :=
  student.map (fun kv => if hasBn kv.1 then kv else (kv.1, kv.2 * (1 - wd)))

/-! ### Stage-1 best-model tracking
(src/src/algorithms/plain_stage_1.py lines 174-189) -/

/-- The validation bookkeeping of `PlainStage1.train`: `best_f1 = 0.`; each
epoch computes `val_f1` and calls `self.net.update_best()` when
`val_f1 > best_f1` — and the loop never reassigns `best_f1`.  Given the
sequence of per-epoch validation F1 values, returns for each epoch whether
the best-weight snapshot was updated. -/
def plainStage1TrainUpdates (f1s : List ℚ) : List Bool :=
  (f1s.foldl
    (fun (acc : List Bool × ℚ) f => (acc.1 ++ [decide (acc.2 < f)], acc.2))
    ([], 0)).1

/-- The tracking the claim describes: the snapshot is updated exactly in the
epochs whose validation F1 exceeds the best F1 of all previous epochs, with
the running best carried along.  Stated from the spec for comparison. -/
def bestTrackingUpdates (f1s : List ℚ) : List Bool :=
  (f1s.foldl
    (fun (acc : List Bool × ℚ) f => (acc.1 ++ [decide (acc.2 < f)], max acc.2 f))
    ([], 0)).1

/-! ### Imbalance Reweighter: effective-number class weights
(src/src/algorithms/stage_2_pslabel_ldam.py lines 74-79) -/

/-- The per-class weight computation run before every LDAM epoch:
`effective_num = 1.0 - np.power(beta, counts)`,
`per_cls_weights = (1.0 - beta) / np.array(effective_num)`, then
`per_cls_weights = per_cls_weights / np.sum(per_cls_weights) * len(counts)`. -/
def per_cls_weights (beta : ℚ) (counts : List ℕ) : List ℚ :=
  let effective_num := counts.map (fun n => 1 - beta ^ n)
  let w := effective_num.map (fun x => (1 - beta) / x)
  w.map (fun x => x / w.sum * counts.length)

/-! ### Memory Stage-1 reachability calibration
(src/src/algorithms/stage_1_memory.py lines 55-66) -/

/-- Sum of squared coordinate differences of two feature vectors. -/
def sqDist (x y : List ℚ) : ℚ :=
  ((x.zipWith (fun a b => a - b) y).map (fun d => d ^ 2)).sum

/-- `torch.norm(x - y, 2)`: the Euclidean distance, with `rt` standing for
the square root. -/
def distE (rt : ℚ → ℚ) (x y : List ℚ) : ℚ :=
  rt (sqDist x y)

/-- The least element of a list (0 for the empty list). -/
def minD : List ℚ → ℚ
  | [] => 0
  | a :: t => t.foldr min a

/-- The reachability rescaling of `MemoryStage1.deploy_epoch` for one
example: distances from the feature vector to every centroid
(`torch.norm(feats_expand - centroids_expand, 2, 2)`), sorted ascending
(`torch.sort(dist_to_centroids, 1)`), the scale `reachability_scale`
divided by the smallest (`values_nn[:, 0]`), broadcast onto the logits. -/
def deploy_logits (rt : ℚ → ℚ) (scale : ℚ) (centroids : Batch)
    (feats logits : List ℚ) : List ℚ :=
  logits.map (fun z =>
    scale / (List.insertionSort (fun a b : ℚ => a ≤ b)
      (centroids.map (fun c => distE rt feats c))).headD 0 * z)

/-- The wording of the spec for of the same computation: let `d_min` be the
smallest Euclidean distance from the feature vector to any centroid and
multiply every logit by `reachability_scale / d_min`. -/
def spec_reachability_logits (rt : ℚ → ℚ) (scale : ℚ) (centroids : Batch)
    (feats logits : List ℚ) : List ℚ :=
  logits.map (fun z =>
    scale / minD (centroids.map (fun c => distE rt feats c)) * z)

/-! ### Stage-2 FixMatch consistency loss
(src/src/algorithms/stage_2_fixmatch_ema.py lines 149-158) -/

/-- `F.cross_entropy(logits, target)` for one example: minus the log of the
softmax probability of the target class, with `lg` standing for `log`. -/
def cross_entropy (e lg : ℚ → ℚ) (v : List ℚ) (t : ℕ) : ℚ :=
  -(lg ((softmax e v).getD t 0))

/-- The unlabeled consistency loss of one Stage-2 step:
`pseudo_label = torch.softmax(logits_u_w, -1)`,
`max_probs, targets_u = torch.max(pseudo_label, -1)`,
`mask = max_probs.ge(fixmatch_t).float()`, and
`loss_u = (F.cross_entropy(logits_u_s, targets_u, reduction="none")
* mask).mean()`.  `ws` are the weak-view logits, `ss` the strong-view
logits. -/
def loss_u (e lg : ℚ → ℚ) (thr : ℚ) (ws ss : Batch) : ℚ :=
  let max_probs := ws.map (fun w => maxVal (softmax e w))
  let targets_u := ws.map (fun w => argmaxFst (softmax e w))
  let mask := max_probs.map (fun p => if thr ≤ p then (1 : ℚ) else 0)
  let ce := List.zipWith (fun s t => cross_entropy e lg s t) ss targets_u
  let masked := List.zipWith (fun a b => a * b) ce mask
  masked.sum / (masked.length : ℚ)

/-- The elementwise product `F.cross_entropy(logits_u_s, targets_u,
reduction="none") * mask` of the same step, written out without the
intermediate bindings of `loss_u` (definitionally equal to them). -/
def maskedList (e lg : ℚ → ℚ) (thr : ℚ) (ws ss : Batch) : List ℚ :=
  List.zipWith (fun a b => a * b)
    (List.zipWith (fun s t => cross_entropy e lg s t) ss
      (ws.map (fun w => argmaxFst (softmax e w))))
    ((ws.map (fun w => maxVal (softmax e w))).map
      (fun p => if thr ≤ p then (1 : ℚ) else 0))

/-- The wording of the claim with a strict threshold: the mean over the full
unlabeled batch of the per-example cross entropy of the strong-view logits
against the weak-view argmax pseudo-label, kept only where the maximum
pseudo-probability strictly exceeds the threshold. -/
def spec_loss_u_strict (e lg : ℚ → ℚ) (thr : ℚ) (ws ss : Batch) : ℚ :=
  ((List.range ss.length).map (fun i =>
    if thr < maxVal (softmax e (ws.getD i [])) then
      cross_entropy e lg (ss.getD i []) (argmaxFst (softmax e (ws.getD i [])))
    else 0)).sum / (ss.length : ℚ)

/-- The same mean with the mask the code computes: the per-example term is
kept when the maximum pseudo-probability is at least the threshold. -/
def spec_loss_u_ge (e lg : ℚ → ℚ) (thr : ℚ) (ws ss : Batch) : ℚ :=
  ((List.range ss.length).map (fun i =>
    if thr ≤ maxVal (softmax e (ws.getD i [])) then
      cross_entropy e lg (ss.getD i []) (argmaxFst (softmax e (ws.getD i [])))
    else 0)).sum / (ss.length : ℚ)

/-! ### Centroid calibration
(src/src/algorithms/stage_1_memory.py lines 105-130) -/

/-- A labeled example as the calibration loop sees it: the extracted feature
vector and the integer class label. -/
abbrev Sample := List ℚ × ℕ

/-- Elementwise addition of feature vectors (`centroids[label] += feats[i]`
adds one row). -/
def vecAdd (x y : List ℚ) : List ℚ :=
  List.zipWith (fun a b => a + b) x y

/-- The accumulation loop of `MemoryStage1.centroids_cal`:
`centroids = torch.zeros(num_classes, feature_dim)`, then for every example
`centroids[label] += feats[i]`. -/
def centroidsSum (numClasses featDim : ℕ) (samples : List Sample) :
    List (List ℚ) :=
  samples.foldl (fun rows s => rows.set s.2 (vecAdd (rows.getD s.2 []) s.1))
    (List.replicate numClasses (List.replicate featDim 0))

/-- Modelled from the spec: `class_counts_cal` is defined on `BaseDataset`
in src/data/utils.py, which is not among the embedded sources.  The spec
says the data provider "exposes a class-count query over its current
contents" and that calibration divides each centroid row by the observed
count of that class, so the query is modelled as the observed count of
every class. -/
def class_counts_cal (numClasses : ℕ) (samples : List Sample) : List ℕ :=
  (List.range numClasses).map (fun c => (samples.map Prod.snd).count c)

/-- Float division of one accumulated row by one class count, as in
`centroids /= torch.tensor(loader_class_counts).float().unsqueeze(1)`:
dividing by a zero count does not produce a rational number (torch yields
NaN on the all-zero row of a class never seen), modelled as `none`. -/
def divRow (row : List ℚ) (n : ℕ) : List (Option ℚ) :=
  row.map (fun x => if n = 0 then none else some (x / (n : ℚ)))

/-- `MemoryStage1.centroids_cal`: accumulate feature sums per class, then
divide each row by the class count. -/
def centroids_cal (numClasses featDim : ℕ) (samples : List Sample) :
    List (List (Option ℚ)) :=
  List.zipWith divRow (centroidsSum numClasses featDim samples)
    (class_counts_cal numClasses samples)

/-- The feature vectors of the examples labeled `c`. -/
def classFeats (samples : List Sample) (c : ℕ) : List (List ℚ) :=
  (samples.filter (fun s => s.2 == c)).map Prod.fst

/-- Sum of a list of feature vectors of dimension `featDim`. -/
def vecSum (featDim : ℕ) (l : List (List ℚ)) : List ℚ :=
  l.foldl vecAdd (List.replicate featDim 0)

/-- The mean feature vector of the examples labeled `c`, as the spec words
it. -/
def classMean (featDim : ℕ) (samples : List Sample) (c : ℕ) : List ℚ :=
  (vecSum featDim (classFeats samples c)).map
    (fun x => x / ((classFeats samples c).length : ℚ))

/-! ### Per-class capped data split
(src/src/data/CCT.py lines 112-147, `CCT_CROP.data_split`) -/

/-- The positions at which `labels` equals `c`: the indices a numpy boolean
mask `labels == c` selects. -/
def idxsOf (labels : List ℕ) (c : ℕ) : List ℕ :=
  (List.range labels.length).filter (fun i => labels.getD i 0 == c)

/-- `np.unique(labels)`: the distinct values present, ascending. -/
def uniqueSorted (labels : List ℕ) : List ℕ :=
  (List.range (labels.foldr max 0 + 1)).filter (fun c => decide (c ∈ labels))

/-- Boolean-mask indexing `xs[labels == c]` of an array parallel to
`labels`. -/
def maskSel {α : Type} (xs : List α) (labels : List ℕ) (c : ℕ) (d : α) :
    List α :=
  (idxsOf labels c).map (fun i => xs.getD i d)

/-- One class block of `data_split`: `cat = xs[labels == c]`; when the class
count exceeds the cap, `np.random.seed(c)` and
`np.random.choice(np.arange(len(cat)), split, replace=False)` pick the kept
positions (`choice` takes seed, population size and draw count), otherwise
the whole block is kept. -/
def catBlock {α : Type} (choice : ℕ → ℕ → ℕ → List ℕ) (split : ℕ)
    (xs : List α) (labels : List ℕ) (c : ℕ) (d : α) : List α :=
  let cat := maskSel xs labels c d
  if split < labels.count c then
    (choice c cat.length split).map (fun j => cat.getD j d)
  else cat

/-- `CCT_CROP.data_split`: per unique label, keep the whole class or a
seeded subsample of `split` positions, applying the same selection to the
data, the labels and the bounding boxes, and concatenate the class blocks.
Returns (data, labels, bbox) after the split. -/
def data_split {α γ : Type} (choice : ℕ → ℕ → ℕ → List ℕ) (split : ℕ)
    (data : List α) (labels : List ℕ) (bbox : List γ) (da : α) (dg : γ) :
    List α × List ℕ × List γ :=
  ((uniqueSorted labels).flatMap
      (fun c => catBlock choice split data labels c da),
   (uniqueSorted labels).flatMap
      (fun c => catBlock choice split labels labels c 0),
   (uniqueSorted labels).flatMap
      (fun c => catBlock choice split bbox labels c dg))

/-- The original positions `data_split` keeps, in output order. -/
def selIndices (choice : ℕ → ℕ → ℕ → List ℕ) (split : ℕ)
    (labels : List ℕ) : List ℕ :=
  (uniqueSorted labels).flatMap (fun c =>
    if split < labels.count c then
      (choice c (idxsOf labels c).length split).map
        (fun j => (idxsOf labels c).getD j 0)
    else idxsOf labels c)

/-- The contract of `np.random.choice(np.arange(n), k, replace=False)` after
`np.random.seed(seed)`: `k` pairwise distinct positions below `n`, whenever
`k ≤ n`. -/
def ChoiceContract (choice : ℕ → ℕ → ℕ → List ℕ) : Prop :=
  ∀ seed n k, k ≤ n → ((choice seed n k).length = k ∧
    (choice seed n k).Nodup ∧ ∀ j ∈ choice seed n k, j < n)

/-- C2: for every batch of logits and every threshold in [0,1], the Confidence
Gate emits per example either -1 or the argmax of the softmax of that
logits of the example, and it emits -1 exactly when the maximum softmax
probability is strictly below the threshold. -/
theorem confidence_gate_spec (e : ℚ → ℚ) (he : ∀ x, 0 < e x)
    (theta : ℚ) (h0 : 0 ≤ theta) (h1 : theta ≤ 1)
    (logits : Batch) (i : ℕ) (hi : i < logits.length) :
    ((confidenceGate e theta logits).getD i 0 = -1 ∨
      (confidenceGate e theta logits).getD i 0 =
        (argmaxFst (softmax e (logits.getD i [])) : ℤ)) ∧
    ((confidenceGate e theta logits).getD i 0 = -1 ↔
      maxVal (softmax e (logits.getD i [])) < theta) := by
  have hlen : i < (confidenceGate e theta logits).length := by
    simpa [confidenceGate] using hi
  have hrow : (confidenceGate e theta logits).getD i 0 =
      confidenceGateRow e theta (logits.getD i []) := by
    rw [List.getD_eq_getElem _ _ hlen, List.getD_eq_getElem _ _ hi]
    simp [confidenceGate]
  rw [hrow]
  unfold confidenceGateRow
  by_cases h : maxVal (softmax e (logits.getD i [])) < theta
  · rw [if_pos h]
    exact ⟨Or.inl rfl, ⟨fun _ => h, fun _ => rfl⟩⟩
  · rw [if_neg h]
    refine ⟨Or.inr rfl, ⟨fun hcast => by omega, fun hlt => absurd hlt h⟩⟩

/-- Witness for C2 at a concrete batch: exp stub `fun _ => 1`,
threshold 3/4, logits `[[0,0]]`. -/
theorem confidence_gate_spec_witness :
    (((confidenceGate (fun _ => 1) (3/4) [[0, 0]]).getD 0 0 = -1 ∨
      (confidenceGate (fun _ => 1) (3/4) [[0, 0]]).getD 0 0 =
        (argmaxFst (softmax (fun _ => 1) (([[0, 0]] : Batch).getD 0 [])) : ℤ)) ∧
     ((confidenceGate (fun _ => 1) (3/4) [[0, 0]]).getD 0 0 = -1 ↔
      maxVal (softmax (fun _ => 1) (([[0, 0]] : Batch).getD 0 [])) < 3/4)) :=
  confidence_gate_spec (fun _ => 1) (fun _ => by norm_num) (3/4)
    (by norm_num) (by norm_num) [[0, 0]] 0 (by simp)

/-- C9: with a non-empty unlabeled loader, every Stage-2 draw succeeds (the
StopIteration is recovered locally, never surfaced), and an exhausted iterator
is restarted and immediately yields the first batch again. -/
theorem draw_unlabeled_wraps {B : Type} (loader : List B) (hne : loader ≠ [])
    (pos : ℕ) :
    (∃ b pos2, drawUnlabeled loader pos = some (b, pos2)) ∧
    (loader.length ≤ pos →
      ∃ b, loader.head? = some b ∧ drawUnlabeled loader pos = some (b, 1)) := by
  obtain ⟨a, t, rfl⟩ := List.exists_cons_of_ne_nil hne
  by_cases h : (a :: t).length ≤ pos
  · have hdrop : (a :: t).drop pos = [] := List.drop_eq_nil_of_le h
    refine ⟨⟨a, 1, ?_⟩, fun _ => ⟨a, rfl, ?_⟩⟩ <;>
      simp [drawUnlabeled, iterNext, hdrop]
  · have hlt : pos < (a :: t).length := Nat.lt_of_not_le h
    obtain ⟨b, rest, hdrop⟩ :
        ∃ b rest, (a :: t).drop pos = b :: rest := by
      cases hd : (a :: t).drop pos with
      | nil =>
          exact absurd (List.drop_eq_nil_iff.mp hd) (by omega)
      | cons b rest => exact ⟨b, rest, rfl⟩
    exact ⟨⟨b, pos + 1, by simp [drawUnlabeled, iterNext, hdrop]⟩,
      fun hle => absurd hle h⟩

/-- Witness for C9: loader `[10, 20]`, exhausted position 5 — the draw wraps
and yields the first batch. -/
theorem draw_unlabeled_wraps_witness :
    ((∃ b pos2, drawUnlabeled [10, 20] 5 = some (b, pos2)) ∧
     (([10, 20] : List ℕ).length ≤ 5 →
       ∃ b, ([10, 20] : List ℕ).head? = some b ∧
         drawUnlabeled [10, 20] 5 = some (b, 1))) :=
  draw_unlabeled_wraps [10, 20] (by simp) 5

lemma lookupD_cons (a : String × ℚ) (t : StateDict) (k : String) (d : ℚ) :
    lookupD (a :: t) k d = if a.1 == k then a.2 else lookupD t k d := by
  by_cases h : (a.1 == k) = true
  · rw [if_pos h]
    simp only [lookupD, List.find?_cons, h]
  · rw [if_neg h]
    have h2 : (a.1 == k) = false := by simpa using h
    simp only [lookupD, List.find?_cons, h2]

lemma lookupD_setKey_ne (m : StateDict) (k k2 : String) (v : ℚ) (d : ℚ)
    (h : k2 ≠ k) : lookupD (setKey m k v) k2 d = lookupD m k2 d := by
  induction m with
  | nil => rfl
  | cons a t ih =>
      have hsk : setKey (a :: t) k v =
          (if a.1 == k then (k, v) else a) :: setKey t k v := by
        simp [setKey]
      rw [hsk, lookupD_cons, lookupD_cons]
      by_cases ha : a.1 = k
      · have h1 : (k == k2) = false := by
          simpa using fun he => h he.symm
        have h2 : (a.1 == k2) = false := by
          simpa [ha] using fun he => h he.symm
        simp [ha, h1, h2, ih]
      · have hif : (if a.1 == k then (k, v) else a) = a := by
          simp [ha]
        rw [hif]
        by_cases hk2 : a.1 = k2
        · simp [hk2]
        · simp only [show (a.1 == k2) = false by simp [hk2], if_false, ih]

/-- The loop of `ModelEMA.update` writes the local dict only at keys it has
already visited, so with pairwise distinct keys every `model_v` it reads is
the original student value: the accumulated teacher list is a pointwise map
of the old teacher list. -/
lemma updateFold_eq_map (decay wd : ℚ) :
    ∀ (l : List (String × ℚ)) (acc : StateDict) (msd student : StateDict),
    (∀ k, k ∈ l.map Prod.fst → ∀ d, lookupD msd k d = lookupD student k d) →
    (l.map Prod.fst).Nodup →
    (l.foldl (updateStep decay wd) (acc, msd)).1 =
      acc ++ l.map (fun kv =>
        (kv.1, kv.2 * decay + (1 - decay) * lookupD student kv.1 0)) := by
  intro l
  induction l with
  | nil => intro acc msd student _ _; simp
  | cons a t ih =>
      intro acc msd student hmsd hnd
      have hhead : lookupD msd a.1 0 = lookupD student a.1 0 :=
        hmsd a.1 (by simp) 0
      have hnd2 : (t.map Prod.fst).Nodup := (List.nodup_cons.mp (by simpa using hnd)).2
      have hne : a.1 ∉ t.map Prod.fst := (List.nodup_cons.mp (by simpa using hnd)).1
      have hstep : updateStep decay wd (acc, msd) a =
          (acc ++ [(a.1, a.2 * decay + (1 - decay) * lookupD student a.1 0)],
            if hasBn a.1 then msd
            else setKey msd a.1 (lookupD msd a.1 0 * (1 - wd))) := by
        simp [updateStep, hhead]
      have hmsd2 : ∀ k, k ∈ t.map Prod.fst → ∀ d,
          lookupD (if hasBn a.1 then msd
            else setKey msd a.1 (lookupD msd a.1 0 * (1 - wd))) k d =
          lookupD student k d := by
        intro k hk d
        have hkne : k ≠ a.1 := fun he => hne (he ▸ hk)
        by_cases hbn : hasBn a.1
        · rw [if_pos hbn]; exact hmsd k (by simp [hk]) d
        · rw [if_neg hbn, lookupD_setKey_ne _ _ _ _ _ hkne]
          exact hmsd k (by simp [hk]) d
      calc ((a :: t).foldl (updateStep decay wd) (acc, msd)).1
          = (t.foldl (updateStep decay wd) (updateStep decay wd (acc, msd) a)).1 := by
            simp [List.foldl_cons]
        _ = acc ++ [(a.1, a.2 * decay + (1 - decay) * lookupD student a.1 0)] ++
              t.map (fun kv =>
                (kv.1, kv.2 * decay + (1 - decay) * lookupD student kv.1 0)) := by
            rw [hstep]
            exact ih _ _ student hmsd2 hnd2
        _ = acc ++ (a :: t).map (fun kv =>
              (kv.1, kv.2 * decay + (1 - decay) * lookupD student kv.1 0)) := by
            simp

/-- C5: the EMA teacher update maps every parameter to
`decay * W_ema + (1 - decay) * W_student`; with decay 1 the teacher is
unchanged by the update, and with decay 0 it equals the student after one
update. -/
theorem ema_update_formula (m : ModelEMA) (student : StateDict)
    (hnd : (m.ema.map Prod.fst).Nodup) :
    ((m.update student).1.ema = m.ema.map (fun kv =>
        (kv.1, m.decay * kv.2 + (1 - m.decay) * lookupD student kv.1 0))) ∧
    (m.decay = 1 → (m.update student).1.ema = m.ema) ∧
    (m.decay = 0 → (m.update student).1.ema = m.ema.map (fun kv =>
        (kv.1, lookupD student kv.1 0))) := by
  have hmain : (m.update student).1.ema = m.ema.map (fun kv =>
      (kv.1, kv.2 * m.decay + (1 - m.decay) * lookupD student kv.1 0)) := by
    show (m.ema.foldl (updateStep m.decay m.wd) ([], student)).1 = _
    simpa using
      updateFold_eq_map m.decay m.wd m.ema [] student student
        (fun _ _ _ => rfl) hnd
  refine ⟨?_, ?_, ?_⟩
  · rw [hmain]
    exact List.map_congr_left (fun kv _ => by ring_nf)
  · intro h1
    rw [hmain]
    have hcong : ∀ kv : String × ℚ, kv ∈ m.ema →
        (kv.1, kv.2 * m.decay + (1 - m.decay) * lookupD student kv.1 0) = kv := by
      intro kv _
      rw [h1]; ring_nf
    rw [List.map_congr_left hcong]
    simp
  · intro h0
    rw [hmain]
    exact List.map_congr_left (fun kv _ => by rw [h0]; ring_nf)

/-- Witness for C5: one parameter `w`, teacher value 2, student value 4,
decay 1/2 — the teacher becomes 3. -/
theorem ema_update_formula_witness :
    ((((ModelEMA.mk [("w", 2)] (1/2) 0).update [("w", 4)]).1.ema =
      ([("w", 2)] : StateDict).map (fun kv =>
        (kv.1, (1/2 : ℚ) * kv.2 + (1 - 1/2) * lookupD [("w", 4)] kv.1 0))) ∧
     ((1/2 : ℚ) = 1 →
       (((ModelEMA.mk [("w", 2)] (1/2) 0).update [("w", 4)]).1.ema =
         [("w", 2)])) ∧
     ((1/2 : ℚ) = 0 →
       (((ModelEMA.mk [("w", 2)] (1/2) 0).update [("w", 4)]).1.ema =
         ([("w", 2)] : StateDict).map (fun kv =>
           (kv.1, lookupD [("w", 4)] kv.1 0))))) :=
  ema_update_formula (ModelEMA.mk [("w", 2)] (1/2) 0) [("w", 4)] (by simp)

/-- C6 (code bug): at a concrete non-normalization parameter `weight` with
value 1 and `lr * wdecay = 1/2`, `ModelEMA.update` hands back the student
parameters unchanged — the decayed value is written only into the local
`state_dict` dict, which is discarded — whereas the claimed decoupled weight
decay would shrink the parameter to 1/2. -/
theorem ema_weight_decay_noop :
    ((ModelEMA.mk [("weight", 1)] (1/2) (1/2)).update [("weight", 1)]).2 =
      [("weight", 1)] ∧
    specStudentDecay (1/2) [("weight", 1)] = [("weight", 1/2)] ∧
    ((ModelEMA.mk [("weight", 1)] (1/2) (1/2)).update [("weight", 1)]).2 ≠
      specStudentDecay (1/2) [("weight", 1)] := by
  have hbn : hasBn "weight" = false := by decide
  have hdec : specStudentDecay (1/2) [("weight", 1)] = [("weight", 1/2)] := by
    simp [specStudentDecay, hbn]
    norm_num
  refine ⟨rfl, hdec, ?_⟩
  rw [hdec]
  show ([("weight", 1)] : StateDict) ≠ [("weight", 1/2)]
  simp only [ne_eq, List.cons.injEq, Prod.mk.injEq]
  norm_num

/-- C7 (code bug): on the validation F1 sequence `[2, 1]` the code updates the
best-weight snapshot in both epochs, because `best_f1` is compared against
but never reassigned and stays 0, while tracking the best seen so far would
update only in epoch 0 (1 < 2). -/
theorem stage1_best_tracking_broken :
    plainStage1TrainUpdates [2, 1] = [true, true] ∧
    bestTrackingUpdates [2, 1] = [true, false] ∧
    plainStage1TrainUpdates [2, 1] ≠ bestTrackingUpdates [2, 1] := by
  have h1 : plainStage1TrainUpdates [2, 1] = [true, true] := by
    simp [plainStage1TrainUpdates]
  have h2 : bestTrackingUpdates [2, 1] = [true, false] := by
    simp [bestTrackingUpdates]
  exact ⟨h1, h2, by rw [h1, h2]; simp⟩

/-- C8: for `beta` in (0,1) and all class counts at least 1, the normalized
effective-number weights sum to the number of classes, and the weight of a
class with strictly larger count is strictly smaller. -/
theorem per_cls_weights_spec (beta : ℚ) (hb0 : 0 < beta) (hb1 : beta < 1)
    (counts : List ℕ) (hne : counts ≠ []) (hc : ∀ n ∈ counts, 1 ≤ n) :
    (per_cls_weights beta counts).sum = (counts.length : ℚ) ∧
    (∀ i j, i < counts.length → j < counts.length →
      counts.getD i 0 < counts.getD j 0 →
      (per_cls_weights beta counts).getD j 0 <
        (per_cls_weights beta counts).getD i 0) := by
  have hwpos : ∀ n ∈ counts, 0 < (1 - beta) / (1 - beta ^ n) := by
    intro n hn
    have hn1 : n ≠ 0 := by have := hc n hn; omega
    have hlt : beta ^ n < 1 := pow_lt_one₀ (le_of_lt hb0) hb1 hn1
    exact div_pos (by linarith) (by linarith)
  have hmap : (counts.map (fun n => 1 - beta ^ n)).map (fun x => (1 - beta) / x)
      = counts.map (fun n => (1 - beta) / (1 - beta ^ n)) := by
    rw [List.map_map]; rfl
  set w := counts.map (fun n => (1 - beta) / (1 - beta ^ n)) with hwdef
  have hS : 0 < w.sum := by
    refine List.sum_pos _ ?_ ?_
    · intro x hx
      obtain ⟨n, hn, rfl⟩ := List.mem_map.mp hx
      exact hwpos n hn
    · simpa [hwdef] using hne
  have hpcw : per_cls_weights beta counts =
      w.map (fun x => x / w.sum * (counts.length : ℚ)) := by
    show ((counts.map (fun n => 1 - beta ^ n)).map
        (fun x => (1 - beta) / x)).map
        (fun x => x / ((counts.map (fun n => 1 - beta ^ n)).map
          (fun x => (1 - beta) / x)).sum * (counts.length : ℚ)) = _
    rw [hmap]
  have hpcw2 : per_cls_weights beta counts = counts.map
      (fun n => (1 - beta) / (1 - beta ^ n) / w.sum * (counts.length : ℚ)) := by
    rw [hpcw, hwdef, List.map_map]
    rfl
  constructor
  · rw [hpcw]
    have hcongr : ∀ x ∈ w, x / w.sum * (counts.length : ℚ) =
        x * ((counts.length : ℚ) / w.sum) := fun x _ => by ring
    rw [List.map_congr_left hcongr]
    have hsum : (w.map (fun x => x * ((counts.length : ℚ) / w.sum))).sum =
        w.sum * ((counts.length : ℚ) / w.sum) := by
      simpa using List.sum_map_mul_right w (fun b => b)
        ((counts.length : ℚ) / w.sum)
    rw [hsum, mul_comm, div_mul_cancel₀ _ (ne_of_gt hS)]
  · intro i j hi hj hij
    have hLpos : (0 : ℚ) < (counts.length : ℚ) := by
      exact_mod_cast Nat.lt_of_le_of_lt (Nat.zero_le j) hj
    have hget : ∀ t, t < counts.length →
        (per_cls_weights beta counts).getD t 0 =
          (1 - beta) / (1 - beta ^ counts.getD t 0) / w.sum *
            (counts.length : ℚ) := by
      intro t ht
      rw [hpcw2]
      rw [List.getD_eq_getElem _ _ (by simpa using ht),
        List.getD_eq_getElem _ _ ht]
      simp [List.getElem_map]
    rw [hget i hi, hget j hj]
    have hni : 1 ≤ counts.getD i 0 := by
      refine hc _ ?_
      rw [List.getD_eq_getElem _ _ hi]
      exact List.getElem_mem hi
    have hpowj : beta ^ counts.getD j 0 < beta ^ counts.getD i 0 :=
      pow_lt_pow_right_of_lt_one₀ hb0 hb1 hij
    have hposi : 0 < 1 - beta ^ counts.getD i 0 := by
      have : beta ^ counts.getD i 0 < 1 :=
        pow_lt_one₀ (le_of_lt hb0) hb1 (by omega)
      linarith
    have hwlt : (1 - beta) / (1 - beta ^ counts.getD j 0) <
        (1 - beta) / (1 - beta ^ counts.getD i 0) :=
      div_lt_div_of_pos_left (by linarith) hposi (by linarith)
    gcongr

/-- Witness for C8: beta 1/2, counts `[1, 2]` — the weights sum to 2 and the
class with count 2 gets the strictly smaller weight. -/
theorem per_cls_weights_spec_witness :
    ((per_cls_weights (1/2) [1, 2]).sum = (([1, 2] : List ℕ).length : ℚ) ∧
     (∀ i j, i < ([1, 2] : List ℕ).length → j < ([1, 2] : List ℕ).length →
       ([1, 2] : List ℕ).getD i 0 < ([1, 2] : List ℕ).getD j 0 →
       (per_cls_weights (1/2) [1, 2]).getD j 0 <
         (per_cls_weights (1/2) [1, 2]).getD i 0)) :=
  per_cls_weights_spec (1/2) (by norm_num) (by norm_num) [1, 2]
    (by simp) (by intro n hn; simp at hn; rcases hn with h | h <;> omega)

lemma foldr_min_le_init (t : List ℚ) (a : ℚ) : t.foldr min a ≤ a := by
  induction t with
  | nil => exact le_refl a
  | cons b t2 ih => exact le_trans (min_le_right _ _) ih

lemma foldr_min_le_mem (t : List ℚ) (a : ℚ) :
    ∀ x ∈ t, t.foldr min a ≤ x := by
  induction t with
  | nil => intro x hx; exact absurd hx (List.not_mem_nil x)
  | cons b t2 ih =>
      intro x hx
      rcases List.mem_cons.mp hx with rfl | hx2
      · exact min_le_left _ _
      · exact le_trans (min_le_right _ _) (ih x hx2)

lemma minD_le (l : List ℚ) : ∀ x ∈ l, minD l ≤ x := by
  cases l with
  | nil => intro x hx; exact absurd hx (List.not_mem_nil x)
  | cons a t =>
      intro x hx
      rcases List.mem_cons.mp hx with rfl | hx2
      · exact foldr_min_le_init t x
      · exact foldr_min_le_mem t a x hx2

lemma foldr_min_mem (t : List ℚ) (a : ℚ) : t.foldr min a ∈ a :: t := by
  induction t with
  | nil => simp
  | cons b t2 ih =>
      show min b (t2.foldr min a) ∈ a :: b :: t2
      rcases min_choice b (t2.foldr min a) with h | h
      · rw [h]; simp
      · rw [h]
        rcases List.mem_cons.mp ih with h2 | h2
        · rw [h2]; simp
        · simp [List.mem_cons, h2]

lemma minD_mem (l : List ℚ) (hne : l ≠ []) : minD l ∈ l := by
  obtain ⟨a, t, rfl⟩ := List.exists_cons_of_ne_nil hne
  exact foldr_min_mem t a

/-- The first value of an ascending sort is the least element. -/
lemma headD_insertionSort_eq_minD (l : List ℚ) (hne : l ≠ []) :
    (List.insertionSort (fun a b : ℚ => a ≤ b) l).headD 0 = minD l := by
  have hperm := List.perm_insertionSort (fun a b : ℚ => a ≤ b) l
  have hsorted := List.sorted_insertionSort (fun a b : ℚ => a ≤ b) l
  have hsne : List.insertionSort (fun a b : ℚ => a ≤ b) l ≠ [] := by
    intro hnil
    exact hne (List.Perm.eq_nil (hnil ▸ hperm.symm))
  obtain ⟨a, t, hs⟩ :=
    List.exists_cons_of_ne_nil hsne
  rw [hs, List.headD_cons]
  have hmem : a ∈ l := (List.Perm.mem_iff hperm).mp (hs ▸ List.mem_cons_self a t)
  have hminmem : minD l ∈ a :: t :=
    hs ▸ (List.Perm.mem_iff hperm).mpr (minD_mem l hne)
  refine le_antisymm ?_ (minD_le l a hmem)
  rcases List.mem_cons.mp hminmem with h | h
  · exact le_of_eq h.symm
  · have hrel := (List.sorted_cons.mp (hs ▸ hsorted)).1
    exact hrel (minD l) h

/-- C4: the Memory Stage-1 deployment calibration multiplies every logit of
an example by the single scalar `reachability_scale / d_min`, where `d_min`
is the smallest Euclidean distance from the feature vector of the example to any
centroid row. -/
theorem deploy_logits_eq_reachability (rt : ℚ → ℚ) (scale : ℚ)
    (centroids : Batch) (feats logits : List ℚ) (hne : centroids ≠ []) :
    deploy_logits rt scale centroids feats logits =
      spec_reachability_logits rt scale centroids feats logits := by
  unfold deploy_logits spec_reachability_logits
  have hd : centroids.map (fun c => distE rt feats c) ≠ [] := by
    simpa using hne
  rw [headD_insertionSort_eq_minD _ hd]

/-- Witness for C4: square-root stub `id`, scale 6, centroids `[[0],[3]]`,
feature `[1]`, logits `[2,4]`. -/
theorem deploy_logits_eq_reachability_witness :
    deploy_logits id 6 [[0], [3]] [1] [2, 4] =
      spec_reachability_logits id 6 [[0], [3]] [1] [2, 4] :=
  deploy_logits_eq_reachability id 6 [[0], [3]] [1] [2, 4] (by simp)

lemma loss_u_sum_eq (e lg : ℚ → ℚ) (thr : ℚ) :
    ∀ ws ss : Batch, ss.length = ws.length →
    (List.zipWith (fun a b => a * b)
      (List.zipWith (fun s t => cross_entropy e lg s t) ss
        (ws.map (fun w => argmaxFst (softmax e w))))
      ((ws.map (fun w => maxVal (softmax e w))).map
        (fun p => if thr ≤ p then (1 : ℚ) else 0))).sum =
    ((List.range ss.length).map (fun i =>
      if thr ≤ maxVal (softmax e (ws.getD i [])) then
        cross_entropy e lg (ss.getD i []) (argmaxFst (softmax e (ws.getD i [])))
      else 0)).sum := by
  intro ws
  induction ws with
  | nil =>
      intro ss h
      have : ss = [] := List.length_eq_zero.mp (by simpa using h)
      subst this
      simp
  | cons w wt ih =>
      intro ss h
      cases ss with
      | nil => simp at h
      | cons s st =>
          have hlen : st.length = wt.length := by simpa using h
          have hhead : cross_entropy e lg s (argmaxFst (softmax e w)) *
              (if thr ≤ maxVal (softmax e w) then (1 : ℚ) else 0) =
              (if thr ≤ maxVal (softmax e w) then
                cross_entropy e lg s (argmaxFst (softmax e w)) else 0) := by
            by_cases hb : thr ≤ maxVal (softmax e w)
            · rw [if_pos hb, if_pos hb, mul_one]
            · rw [if_neg hb, if_neg hb, mul_zero]
          simp only [List.map_cons, List.zipWith_cons_cons, List.sum_cons]
          rw [hhead, ih st hlen]
          have htail : (List.range st.length).map (fun i =>
              if thr ≤ maxVal (softmax e (wt.getD i [])) then
                cross_entropy e lg (st.getD i [])
                  (argmaxFst (softmax e (wt.getD i [])))
              else 0) = (List.range st.length).map ((fun i =>
              if thr ≤ maxVal (softmax e ((w :: wt).getD i [])) then
                cross_entropy e lg ((s :: st).getD i [])
                  (argmaxFst (softmax e ((w :: wt).getD i [])))
              else 0) ∘ Nat.succ) := by
            refine List.map_congr_left ?_
            intro i _
            simp [Function.comp, List.getD_cons_succ]
          rw [show (s :: st).length = st.length + 1 from rfl,
            List.range_succ_eq_map]
          simp only [List.map_cons, List.sum_cons, List.map_map]
          rw [← htail]
          simp [List.getD_cons_zero]

/-- C1 (amended): the Stage-2 consistency loss is the mean over the full
unlabeled batch — denominator the batch size, with masked-out examples
contributing zero — of per-example cross entropy between strong-view logits
and the weak-view argmax pseudo-label, where the mask keeps exactly the
examples whose maximum weak-view pseudo-probability is at least
(`.ge`, not strictly above) the FixMatch threshold; when every
pseudo-probability is strictly below the threshold the loss is exactly 0. -/
theorem loss_u_fullbatch_mean (e lg : ℚ → ℚ) (thr : ℚ) (ws ss : Batch)
    (hlen : ss.length = ws.length) :
    loss_u e lg thr ws ss = spec_loss_u_ge e lg thr ws ss ∧
    ((∀ w ∈ ws, maxVal (softmax e w) < thr) → loss_u e lg thr ws ss = 0) := by
  have hloss : loss_u e lg thr ws ss =
      (maskedList e lg thr ws ss).sum /
        ((maskedList e lg thr ws ss).length : ℚ) := rfl
  have hmasklen : (maskedList e lg thr ws ss).length = ss.length := by
    simp [maskedList, List.length_zipWith, hlen]
  have hsum : (maskedList e lg thr ws ss).sum =
      ((List.range ss.length).map (fun i =>
        if thr ≤ maxVal (softmax e (ws.getD i [])) then
          cross_entropy e lg (ss.getD i [])
            (argmaxFst (softmax e (ws.getD i [])))
        else 0)).sum := by
    unfold maskedList
    exact loss_u_sum_eq e lg thr ws ss hlen
  have hmain : loss_u e lg thr ws ss = spec_loss_u_ge e lg thr ws ss := by
    rw [hloss, hmasklen, hsum]
    rfl
  refine ⟨hmain, fun hall => ?_⟩
  rw [hmain]
  unfold spec_loss_u_ge
  have hzero : ∀ x ∈ (List.range ss.length).map (fun i =>
      if thr ≤ maxVal (softmax e (ws.getD i [])) then
        cross_entropy e lg (ss.getD i []) (argmaxFst (softmax e (ws.getD i [])))
      else 0), x = 0 := by
    intro x hx
    obtain ⟨i, hi, rfl⟩ := List.mem_map.mp hx
    have hilt : i < ws.length := by
      rw [← hlen]; exact List.mem_range.mp hi
    have hmem : ws.getD i [] ∈ ws := by
      rw [List.getD_eq_getElem _ _ hilt]
      exact List.getElem_mem hilt
    rw [if_neg (not_le.mpr (hall _ hmem))]
  rw [List.sum_eq_zero hzero, zero_div]

/-- Witness for C1 (amended) at a concrete batch of one example with two
classes, exp stub `fun _ => 1` and log stub `fun x => x - 1`. -/
theorem loss_u_fullbatch_mean_witness :
    (loss_u (fun _ => 1) (fun x => x - 1) (3/4) [[0, 0]] [[0, 0]] =
      spec_loss_u_ge (fun _ => 1) (fun x => x - 1) (3/4) [[0, 0]] [[0, 0]] ∧
     ((∀ w ∈ ([[0, 0]] : Batch), maxVal (softmax (fun _ => 1) w) < 3/4) →
       loss_u (fun _ => 1) (fun x => x - 1) (3/4) [[0, 0]] [[0, 0]] = 0)) :=
  loss_u_fullbatch_mean (fun _ => 1) (fun x => x - 1) (3/4) [[0, 0]] [[0, 0]]
    rfl

/-- C1 counterexample: with exp stub `fun _ => 1` and log stub
`fun x => x - 1`, one unlabeled example with two equal logits has maximum
pseudo-probability exactly 1/2; at threshold 1/2 the code (`.ge`) keeps the
example and the loss is 1/2, while the strict "exceeds" would drop
it and give 0. -/
theorem loss_u_strict_counterexample :
    loss_u (fun _ => 1) (fun x => x - 1) (1/2) [[0, 0]] [[0, 0]] ≠
      spec_loss_u_strict (fun _ => 1) (fun x => x - 1) (1/2) [[0, 0]] [[0, 0]] := by
  have hsm : softmax (fun _ => 1) [0, 0] = [1/2, 1/2] := by
    norm_num [softmax]
  have hmax : maxVal [(1 : ℚ)/2, 1/2] = 1/2 := by
    norm_num [maxVal]
  have harg : argmaxFst [(1 : ℚ)/2, 1/2] = 0 := by
    norm_num [argmaxFst, maxVal, List.findIdx, List.findIdx.go]
  have hce : cross_entropy (fun _ => 1) (fun x => x - 1) [0, 0] 0 = 1/2 := by
    rw [cross_entropy, hsm]
    norm_num
  have hcode : loss_u (fun _ => 1) (fun x => x - 1) (1/2) [[0, 0]] [[0, 0]]
      = 1/2 := by
    show (maskedList (fun _ => 1) (fun x => x - 1) (1/2) [[0, 0]] [[0, 0]]).sum /
      ((maskedList (fun _ => 1) (fun x => x - 1) (1/2) [[0, 0]] [[0, 0]]).length
        : ℚ) = 1/2
    rw [show maskedList (fun _ => 1) (fun x => x - 1) (1/2) [[0, 0]] [[0, 0]] =
        [1/2] by
      unfold maskedList
      rw [List.map_cons, List.map_nil, hsm, harg,
        List.map_cons, List.map_nil, hsm, hmax]
      simp only [List.zipWith_cons_cons, List.zipWith_nil_right, hce]
      norm_num]
    norm_num
  have hspec : spec_loss_u_strict (fun _ => 1) (fun x => x - 1) (1/2)
      [[0, 0]] [[0, 0]] = 0 := by
    unfold spec_loss_u_strict
    rw [show ([[0, 0]] : Batch).length = 1 from rfl,
      show List.range 1 = [0] from rfl]
    simp only [List.map_cons, List.map_nil, List.getD_cons_zero, hsm, hmax]
    norm_num
  rw [hcode, hspec]
  norm_num

lemma foldAdd_length (samples : List Sample) :
    ∀ rows : List (List ℚ),
    (samples.foldl
      (fun rows s => rows.set s.2 (vecAdd (rows.getD s.2 []) s.1))
      rows).length = rows.length := by
  induction samples with
  | nil => intro rows; rfl
  | cons s st ih =>
      intro rows
      rw [List.foldl_cons, ih]
      exact List.length_set rows s.2 _

lemma foldAdd_getD (samples : List Sample) :
    ∀ (rows : List (List ℚ)) (c : ℕ), c < rows.length →
    (samples.foldl
      (fun rows s => rows.set s.2 (vecAdd (rows.getD s.2 []) s.1))
      rows).getD c [] =
      (classFeats samples c).foldl vecAdd (rows.getD c []) := by
  induction samples with
  | nil => intro rows c _; simp [classFeats]
  | cons s st ih =>
      intro rows c hc
      rw [List.foldl_cons]
      have hc2 : c < (rows.set s.2 (vecAdd (rows.getD s.2 []) s.1)).length := by
        rw [List.length_set]; exact hc
      rw [ih _ c hc2]
      by_cases hsc : s.2 = c
      · have hfeats : classFeats (s :: st) c = s.1 :: classFeats st c := by
          simp [classFeats, List.filter_cons, hsc]
        have hrow : (rows.set s.2 (vecAdd (rows.getD s.2 []) s.1)).getD c []
            = vecAdd (rows.getD c []) s.1 := by
          subst hsc
          rw [List.getD_eq_getElem _ _ (by rw [List.length_set]; exact hc)]
          rw [List.getElem_set_self, List.getD_eq_getElem _ _ hc]
        rw [hfeats, hrow, List.foldl_cons]
      · have hfeats : classFeats (s :: st) c = classFeats st c := by
          simp [classFeats, List.filter_cons, hsc]
        have hrow : (rows.set s.2 (vecAdd (rows.getD s.2 []) s.1)).getD c []
            = rows.getD c [] := by
          rw [List.getD_eq_getElem _ _ (by rw [List.length_set]; exact hc),
            List.getElem_set_ne hsc, List.getD_eq_getElem _ _ hc]
        rw [hfeats, hrow]

lemma centroidsSum_getD (numClasses featDim : ℕ) (samples : List Sample)
    (c : ℕ) (hc : c < numClasses) :
    (centroidsSum numClasses featDim samples).getD c [] =
      vecSum featDim (classFeats samples c) := by
  unfold centroidsSum vecSum
  rw [foldAdd_getD samples _ c (by simpa using hc)]
  congr 1
  rw [List.getD_eq_getElem _ _ (by simpa using hc), List.getElem_replicate]

lemma classFeats_length_eq_count (samples : List Sample) (c : ℕ) :
    (classFeats samples c).length = (samples.map Prod.snd).count c := by
  rw [classFeats, List.length_map, List.count_eq_countP, List.countP_map]
  rw [← List.countP_eq_length_filter]
  rfl

/-- C3 (amended): after `centroids_cal`, every class with at least one
labeled example has as its centroid row the mean of the feature vectors of
its labeled examples, while a class absent from the labeled data ends with
a row of undefined entries (NaN: its all-zero row is divided by a zero
count), not with a defined all-zero row. -/
theorem centroids_cal_rows (numClasses featDim : ℕ) (samples : List Sample)
    (hlab : ∀ s ∈ samples, s.2 < numClasses)
    (hfeat : ∀ s ∈ samples, s.1.length = featDim)
    (c : ℕ) (hc : c < numClasses) :
    (0 < (samples.map Prod.snd).count c →
      (centroids_cal numClasses featDim samples).getD c [] =
        (classMean featDim samples c).map some) ∧
    ((samples.map Prod.snd).count c = 0 →
      (centroids_cal numClasses featDim samples).getD c [] =
        List.replicate featDim none) := by
  have hsumlen : (centroidsSum numClasses featDim samples).length
      = numClasses := by
    unfold centroidsSum
    rw [foldAdd_length]
    exact List.length_replicate numClasses _
  have hcntlen : (class_counts_cal numClasses samples).length = numClasses := by
    simp [class_counts_cal]
  have hziplen : (centroids_cal numClasses featDim samples).length
      = numClasses := by
    unfold centroids_cal
    rw [List.length_zipWith, hsumlen, hcntlen, min_self]
  have hcnt : (class_counts_cal numClasses samples).getD c 0 =
      (samples.map Prod.snd).count c := by
    unfold class_counts_cal
    rw [List.getD_eq_getElem _ _ (by simpa using hc), List.getElem_map]
    congr 1
    exact List.getElem_range _ _
  have hrow : (centroids_cal numClasses featDim samples).getD c [] =
      divRow (vecSum featDim (classFeats samples c))
        ((samples.map Prod.snd).count c) := by
    unfold centroids_cal
    rw [List.getD_eq_getElem _ _ (by rw [← hziplen] at hc; exact hc)]
    rw [List.getElem_zipWith]
    rw [← centroidsSum_getD numClasses featDim samples c hc,
      List.getD_eq_getElem _ _ (by rw [hsumlen]; exact hc)]
    rw [← hcnt, List.getD_eq_getElem _ _ (by rw [hcntlen]; exact hc)]
  constructor
  · intro hpos
    rw [hrow, divRow, classMean]
    rw [List.map_map]
    refine List.map_congr_left ?_
    intro x _
    have hne : (samples.map Prod.snd).count c ≠ 0 := Nat.pos_iff_ne_zero.mp hpos
    simp only [Function.comp, if_neg hne, classFeats_length_eq_count]
  · intro hzero
    have hempty : classFeats samples c = [] := by
      have hnm : c ∉ samples.map Prod.snd := List.count_eq_zero.mp hzero
      have hfil : samples.filter (fun s => s.2 == c) = [] := by
        rw [List.filter_eq_nil_iff]
        intro s hs hp
        exact hnm (List.mem_map.mpr ⟨s, hs, beq_iff_eq.mp hp⟩)
      rw [classFeats, hfil, List.map_nil]
    rw [hrow, hzero, hempty]
    unfold divRow vecSum
    simp [List.map_replicate]

/-- Witness for C3 (amended): two classes, one-dimensional features, a single
example of class 0. -/
theorem centroids_cal_rows_witness :
    ((0 < (([([3], 0)] : List Sample).map Prod.snd).count 0 →
      (centroids_cal 2 1 [([3], 0)]).getD 0 [] =
        (classMean 1 [([3], 0)] 0).map some) ∧
     ((([([3], 0)] : List Sample).map Prod.snd).count 0 = 0 →
      (centroids_cal 2 1 [([3], 0)]).getD 0 [] = List.replicate 1 none)) :=
  centroids_cal_rows 2 1 [([3], 0)]
    (by intro s hs; rw [List.mem_singleton] at hs; subst hs; norm_num)
    (by intro s hs; rw [List.mem_singleton] at hs; subst hs; rfl)
    0 (by norm_num)

/-- C3 counterexample: with two classes and only one example, of class 0,
the centroid row of the absent class 1 is the undefined (NaN) row `[none]`,
not the defined all-zero row the claim asserts. -/
theorem centroids_cal_absent_class_undefined :
    (centroids_cal 2 1 [([3], 0)]).getD 1 [] = [none] ∧
    (centroids_cal 2 1 [([3], 0)]).getD 1 [] ≠ [some 0] := by
  have h1 : (centroids_cal 2 1 [([3], 0)]).getD 1 [] = [none] := by
    simp [centroids_cal, centroidsSum, class_counts_cal, divRow, vecAdd]
  refine ⟨h1, ?_⟩
  rw [h1]
  simp

lemma map_getD_range {α : Type} (l : List α) (d : α) :
    (List.range l.length).map (fun i => l.getD i d) = l := by
  induction l with
  | nil => rfl
  | cons a t ih =>
      have htail : (List.range t.length).map
          ((fun i => (a :: t).getD i d) ∘ Nat.succ) = t := by
        calc (List.range t.length).map ((fun i => (a :: t).getD i d) ∘ Nat.succ)
            = (List.range t.length).map (fun i => t.getD i d) := by
              refine List.map_congr_left ?_
              intro i _
              simp [Function.comp, List.getD_cons_succ]
          _ = t := ih
      rw [show (a :: t).length = t.length + 1 from rfl,
        List.range_succ_eq_map, List.map_cons, List.map_map, htail]
      rfl

lemma idxsOf_length (labels : List ℕ) (c : ℕ) :
    (idxsOf labels c).length = labels.count c := by
  unfold idxsOf
  rw [← List.countP_eq_length_filter]
  conv_rhs => rw [← map_getD_range labels 0]
  rw [List.count_eq_countP, List.countP_map]
  rfl

lemma idxsOf_label (labels : List ℕ) (c : ℕ) :
    ∀ i ∈ idxsOf labels c, labels.getD i 0 = c := by
  intro i hi
  have := (List.mem_filter.mp hi).2
  simpa using this

lemma maskSel_labels_all_eq (labels : List ℕ) (c : ℕ) :
    ∀ x ∈ maskSel labels labels c 0, x = c := by
  intro x hx
  obtain ⟨i, hi, rfl⟩ := List.mem_map.mp hx
  exact idxsOf_label labels c i hi

lemma maskSel_length {α : Type} (xs : List α) (labels : List ℕ) (c : ℕ)
    (d : α) : (maskSel xs labels c d).length = labels.count c := by
  rw [maskSel, List.length_map, idxsOf_length]

lemma catBlock_labels_all_eq (choice : ℕ → ℕ → ℕ → List ℕ)
    (hchoice : ChoiceContract choice) (split : ℕ) (labels : List ℕ)
    (c : ℕ) : ∀ x ∈ catBlock choice split labels labels c 0, x = c := by
  intro x hx
  unfold catBlock at hx
  by_cases hcond : split < labels.count c
  · rw [if_pos hcond] at hx
    obtain ⟨j, hj, rfl⟩ := List.mem_map.mp hx
    have hn : (maskSel labels labels c 0).length = labels.count c :=
      maskSel_length labels labels c 0
    have hjlt : j < (maskSel labels labels c 0).length :=
      ((hchoice c _ split (by rw [hn]; exact le_of_lt hcond)).2.2) j hj
    refine maskSel_labels_all_eq labels c _ ?_
    rw [List.getD_eq_getElem _ _ hjlt]
    exact List.getElem_mem hjlt
  · rw [if_neg hcond] at hx
    exact maskSel_labels_all_eq labels c x hx

lemma catBlock_length {α : Type} (choice : ℕ → ℕ → ℕ → List ℕ)
    (hchoice : ChoiceContract choice) (split : ℕ) (xs : List α)
    (labels : List ℕ) (c : ℕ) (d : α) :
    (catBlock choice split xs labels c d).length =
      min (labels.count c) split := by
  unfold catBlock
  by_cases hcond : split < labels.count c
  · rw [if_pos hcond, List.length_map,
      (hchoice c _ split (by rw [maskSel_length]; exact le_of_lt hcond)).1]
    exact (min_eq_right (le_of_lt hcond)).symm
  · rw [if_neg hcond, maskSel_length]
    exact (min_eq_left (Nat.le_of_not_lt hcond)).symm

lemma le_foldr_max (labels : List ℕ) : ∀ x ∈ labels, x ≤ labels.foldr max 0 := by
  induction labels with
  | nil => intro x hx; exact absurd hx (List.not_mem_nil x)
  | cons a t ih =>
      intro x hx
      rcases List.mem_cons.mp hx with rfl | hx2
      · exact le_max_left _ _
      · exact le_trans (ih x hx2) (le_max_right _ _)

lemma mem_uniqueSorted (labels : List ℕ) (c : ℕ) :
    c ∈ uniqueSorted labels ↔ c ∈ labels := by
  unfold uniqueSorted
  rw [List.mem_filter, List.mem_range]
  constructor
  · rintro ⟨_, h⟩
    simpa using h
  · intro hc
    exact ⟨Nat.lt_succ_of_le (le_foldr_max labels c hc), by simpa using hc⟩

lemma nodup_uniqueSorted (labels : List ℕ) : (uniqueSorted labels).Nodup :=
  List.Nodup.filter _ (List.nodup_range _)

lemma sum_map_eq_single (l : List ℕ) (f : ℕ → ℕ) (c : ℕ)
    (hf : ∀ u ∈ l, u ≠ c → f u = 0) (hnd : l.Nodup) :
    (l.map f).sum = if c ∈ l then f c else 0 := by
  induction l with
  | nil => simp
  | cons a t ih =>
      obtain ⟨hna, hndt⟩ := List.nodup_cons.mp hnd
      rw [List.map_cons, List.sum_cons]
      by_cases hac : a = c
      · subst hac
        rw [if_pos (List.mem_cons_self a t)]
        have ht : (t.map f).sum = 0 := by
          rw [ih (fun u hu _ => hf u (List.mem_cons_of_mem a hu)
            (by rintro rfl; exact hna hu)) hndt]
          rw [if_neg hna]
        rw [ht, Nat.add_zero]
      · rw [hf a (List.mem_cons_self a t) hac]
        rw [ih (fun u hu h2 => hf u (List.mem_cons_of_mem a hu) h2) hndt]
        rw [zero_add]
        by_cases hct : c ∈ t
        · rw [if_pos hct, if_pos (List.mem_cons_of_mem a hct)]
        · rw [if_neg hct, if_neg (by
            intro hmem
            rcases List.mem_cons.mp hmem with h | h
            · exact hac h.symm
            · exact hct h)]

lemma flatMap_congr {α β : Type} (l : List α) (f g : α → List β)
    (h : ∀ a ∈ l, f a = g a) : l.flatMap f = l.flatMap g := by
  induction l with
  | nil => rfl
  | cons a t ih =>
      rw [List.flatMap_cons, List.flatMap_cons,
        h a (List.mem_cons_self a t),
        ih (fun x hx => h x (List.mem_cons_of_mem a hx))]

lemma catBlock_eq_map_idx {α : Type} (choice : ℕ → ℕ → ℕ → List ℕ)
    (hchoice : ChoiceContract choice) (split : ℕ) (xs : List α)
    (labels : List ℕ) (c : ℕ) (d : α) :
    catBlock choice split xs labels c d =
      (if split < labels.count c then
        (choice c (idxsOf labels c).length split).map
          (fun j => (idxsOf labels c).getD j 0)
      else idxsOf labels c).map (fun i => xs.getD i d) := by
  unfold catBlock
  by_cases hcond : split < labels.count c
  · rw [if_pos hcond, if_pos hcond, List.map_map]
    have hn : (maskSel xs labels c d).length = (idxsOf labels c).length := by
      rw [maskSel_length, idxsOf_length]
    rw [show maskSel xs labels c d =
        (idxsOf labels c).map (fun i => xs.getD i d) from rfl]
    rw [List.length_map]
    refine List.map_congr_left ?_
    intro j hj
    have hjlt : j < (idxsOf labels c).length :=
      (hchoice c _ split (by rw [idxsOf_length]; exact le_of_lt hcond)).2.2 j hj
    rw [List.getD_eq_getElem _ _ (by rw [List.length_map]; exact hjlt),
      List.getElem_map, Function.comp]
    rw [List.getD_eq_getElem _ _ hjlt]
  · rw [if_neg hcond, if_neg hcond]
    rfl

/-- C10: after `data_split` with per-class cap `split`, every class retains
exactly `min(original count, split)` samples, and the data, label and
bounding-box outputs are obtained by reading the three parallel arrays at
one shared list of kept original positions (classes over the cap are
subsampled through the seeded `choice`, the seed being the class label;
classes at or under the cap keep everything). -/
theorem data_split_spec {α γ : Type} (choice : ℕ → ℕ → ℕ → List ℕ)
    (hchoice : ChoiceContract choice) (split : ℕ)
    (data : List α) (labels : List ℕ) (bbox : List γ) (da : α) (dg : γ)
    (hd : data.length = labels.length) (hb : bbox.length = labels.length) :
    (∀ c, ((data_split choice split data labels bbox da dg).2.1).count c =
      min (labels.count c) split) ∧
    (data_split choice split data labels bbox da dg).1 =
      (selIndices choice split labels).map (fun i => data.getD i da) ∧
    (data_split choice split data labels bbox da dg).2.1 =
      (selIndices choice split labels).map (fun i => labels.getD i 0) ∧
    (data_split choice split data labels bbox da dg).2.2 =
      (selIndices choice split labels).map (fun i => bbox.getD i dg) := by
  have halign : ∀ (β : Type) (xs : List β) (d : β),
      (uniqueSorted labels).flatMap
        (fun c => catBlock choice split xs labels c d) =
      (selIndices choice split labels).map (fun i => xs.getD i d) := by
    intro β xs d
    unfold selIndices
    rw [List.map_flatMap]
    exact flatMap_congr _ _ _
      (fun c _ => catBlock_eq_map_idx choice hchoice split xs labels c d)
  refine ⟨?_, halign α data da, halign ℕ labels 0, halign γ bbox dg⟩
  intro c
  show ((uniqueSorted labels).flatMap
      (fun u => catBlock choice split labels labels u 0)).count c = _
  rw [List.count_flatMap]
  have hsum := sum_map_eq_single (uniqueSorted labels)
    (fun u => (catBlock choice split labels labels u 0).count c) c
    (fun u _ huc => List.count_eq_zero.mpr (fun hmem =>
      huc ((catBlock_labels_all_eq choice hchoice split labels u c hmem) ▸ rfl)))
    (nodup_uniqueSorted labels)
  rw [show (List.map (List.count c ∘ fun u =>
      catBlock choice split labels labels u 0) (uniqueSorted labels)) =
    (uniqueSorted labels).map (fun u =>
      (catBlock choice split labels labels u 0).count c) from rfl, hsum]
  by_cases hcm : c ∈ labels
  · rw [if_pos ((mem_uniqueSorted labels c).mpr hcm)]
    show (catBlock choice split labels labels c 0).count c = _
    rw [List.count_eq_length.mpr (fun b hb2 =>
      (catBlock_labels_all_eq choice hchoice split labels c b hb2).symm)]
    exact catBlock_length choice hchoice split labels labels c 0
  · rw [if_neg (fun hmem => hcm ((mem_uniqueSorted labels c).mp hmem))]
    rw [List.count_eq_zero.mpr hcm]
    simp

/-- Witness for C10: cap 1, three samples of classes `[0, 0, 1]`, and the
selection stub that always keeps the first positions. -/
theorem data_split_spec_witness :
    ((∀ c, ((data_split (fun _ _ k => List.range k) 1 [10, 20, 30] [0, 0, 1]
        [5, 6, 7] 0 0).2.1).count c = min (([0, 0, 1] : List ℕ).count c) 1) ∧
     (data_split (fun _ _ k => List.range k) 1 [10, 20, 30] [0, 0, 1]
        [5, 6, 7] 0 0).1 =
       (selIndices (fun _ _ k => List.range k) 1 [0, 0, 1]).map
         (fun i => ([10, 20, 30] : List ℕ).getD i 0) ∧
     (data_split (fun _ _ k => List.range k) 1 [10, 20, 30] [0, 0, 1]
        [5, 6, 7] 0 0).2.1 =
       (selIndices (fun _ _ k => List.range k) 1 [0, 0, 1]).map
         (fun i => ([0, 0, 1] : List ℕ).getD i 0) ∧
     (data_split (fun _ _ k => List.range k) 1 [10, 20, 30] [0, 0, 1]
        [5, 6, 7] 0 0).2.2 =
       (selIndices (fun _ _ k => List.range k) 1 [0, 0, 1]).map
         (fun i => ([5, 6, 7] : List ℕ).getD i 0)) :=
  data_split_spec (fun _ _ k => List.range k)
    (fun _ n k hk => ⟨List.length_range k, List.nodup_range k,
      fun j hj => Nat.lt_of_lt_of_le (List.mem_range.mp hj) hk⟩)
    1 [10, 20, 30] [0, 0, 1] [5, 6, 7] 0 0 rfl rfl

end Wildlife
